import Mathlib

/-!
Verification of the ValueCell Telegram bridge core: the streaming response
aggregator, text merger and session router
(`valuecell/telegram/bot.py`, `translator.py`, `service.py`, `context.py`,
`storage.py`, `server/db/repositories/telegram_repository.py`).

Python strings are modelled as `List Char` (`PStr`); Python's `str.strip`
family strips the ASCII whitespace characters that occur in this code base
(space, tab, newline, carriage return).  `time.monotonic()` timestamps are
modelled as integer milliseconds, so the throttle interval of 0.6 seconds
becomes the constant 600.  Fallible transport calls are modelled by explicit
outcome values.
-/

/-- Python-style strings: a list of unicode characters. -/
abbrev PStr := List Char

/-- Coerce a Lean string literal to the `PStr` model. -/
def str (s : String) : PStr := s.data

/-- Whitespace as stripped by `str.strip()` (restricted to the ASCII
whitespace occurring in this code base). -/
def isWs (c : Char) : Bool := c == ' ' || c == '\t' || c == '\n' || c == '\r'

/-- The characters collapsed by the `re.sub(r"[ \t]+", " ", ...)` pass. -/
def isSpaceTab (c : Char) : Bool := c == ' ' || c == '\t'

/-- Python `str.lstrip()`. -/
def pyLstrip (x : PStr) : PStr := x.dropWhile isWs

/-- Python `str.rstrip()`. -/
def pyRstrip (x : PStr) : PStr := (x.reverse.dropWhile isWs).reverse

/-- Python `str.strip()`. -/
def pyStrip (x : PStr) : PStr := pyLstrip (pyRstrip x)

/-- Python `str.startswith(p)`. -/
def pyStartsWith (p x : PStr) : Bool := p.isPrefixOf x

/-- Python `str.endswith((".", "?", "!", ":"))` from `_merge_inline`. -/
def endsPunct (x : PStr) : Bool :=
  match x.getLast? with
  | some c => c == '.' || c == '?' || c == '!' || c == ':'
  | none => false

/-- The `re.sub(r"[ \t]+", " ", cleaned)` pass of `_normalize_chunk`:
every maximal run of spaces/tabs becomes a single space. -/
def pyCollapse : PStr → PStr
  | [] => []
  | [c] => if isSpaceTab c then [' '] else [c]
  | c :: d :: rest =>
    if isSpaceTab c then
      if isSpaceTab d then pyCollapse (d :: rest)
      else ' ' :: pyCollapse (d :: rest)
    else c :: pyCollapse (d :: rest)

/-- Python `str.splitlines()` (for the line boundaries `\n`, `\r\n`, `\r`
that can occur in this code base): boundaries are consumed and a trailing
boundary produces no trailing empty line. -/
def pySplitlines : PStr → List PStr
  | [] => []
  | '\r' :: '\n' :: rest => [] :: pySplitlines rest
  | '\n' :: rest => [] :: pySplitlines rest
  | '\r' :: rest => [] :: pySplitlines rest
  | c :: rest =>
    match pySplitlines rest with
    | [] => [[c]]
    | l :: ls => (c :: l) :: ls

/-- Python `str.split("\n\n")` from `_append_chunk` (non-overlapping,
left-to-right). -/
def paraSplit : PStr → List PStr
  | [] => [[]]
  | '\n' :: '\n' :: rest => [] :: paraSplit rest
  | c :: rest =>
    match paraSplit rest with
    | [] => [[c]]
    | p :: ps => (c :: p) :: ps

/-- Python `"\n".join(lines)`. -/
def joinNL : List PStr → PStr
  | [] => []
  | [l] => l
  | l :: ls => l ++ '\n' :: joinNL ls

/-- Python `"\n\n".join(paragraphs)`. -/
def joinPara : List PStr → PStr
  | [] => []
  | [l] => l
  | l :: ls => l ++ '\n' :: '\n' :: joinPara ls

/-- The tool status line prefix `"🛠 Tool"` used by `_is_tool_message` and
`_normalize_chunk`. -/
def toolPrefix : PStr := str "🛠 Tool"

/-- `TelegramBotApp._is_tool_message`. -/
def isToolMessage (t : PStr) : Bool := pyStartsWith toolPrefix (pyStrip t)

/-- `TelegramBotApp._merge_inline`. -/
def merge_inline (l r : PStr) : PStr :=
  let l' := pyRstrip l
  let r' := pyLstrip r
  if l' = [] then r'
  else if r' = [] then l'
  else if endsPunct l' then l' ++ '\n' :: r' else l' ++ ' ' :: r'

/-- `TelegramBotApp._append_chunk`. -/
def append_chunk (current chunk : PStr) : PStr :=
  if current = [] then chunk
  else
    let ep := paraSplit current
    let np := paraSplit chunk
    if 1 < ep.length ∨ 1 < np.length then
      let merged := ep.dropLast ++ [merge_inline (ep.getLastD []) (np.headD [])] ++ np.tail
      joinPara ((merged.map pyStrip).filter (fun p => !p.isEmpty))
    else merge_inline current chunk

/-- The line filter of `_normalize_chunk`: keep a line iff its strip is
non-empty and does not start with the tool prefix. -/
def keepLine (l : PStr) : Bool :=
  !(pyStrip l).isEmpty && !pyStartsWith toolPrefix (pyStrip l)

/-- `TelegramBotApp._normalize_chunk`. -/
def normalizeChunk (t : PStr) : PStr :=
  if t = [] then []
  else
    let filtered := ((pySplitlines t).filter keepLine).map pyRstrip
    if filtered = [] then []
    else
      let cleaned := pyStrip (joinNL filtered)
      if cleaned = [] then [] else pyCollapse cleaned

/-- The maximum outbound payload length of `_safe_send`. -/
def maxPayloadLen : Nat := 3900

/-- The truncation step of `_safe_send`:
`payload = "…" + payload[-(max_len - 1):]` when the text is oversized. -/
def truncatePayload (t : PStr) : PStr :=
  if maxPayloadLen < t.length then '…' :: t.drop (t.length - (maxPayloadLen - 1)) else t


/-! ### Response events and `extract_text` (`translator.py`)

The backend response types (`valuecell.core.types`, `EventPredicates`) are not
under `src/`; following the spec's event taxonomy (§3 *ResponseEvent*, §4.1)
they are modelled as a tagged union over the event kinds that
`extract_text` dispatches on, each carrying the optional text payload /
metadata the translator reads.  Python truthiness of an optional string
(`None` and `""` are falsy) is modelled by `optText`. -/

inductive RespEvent where
  | message (content : Option PStr)
  | reasoning (content : Option PStr)
  | planRequireUserInput (content : Option PStr)
  | planFailed (content : Option PStr)
  | done
  | toolCallStarted (toolName : Option PStr)
  | toolCallCompleted (toolName : Option PStr)
  | componentGenerator (componentType : Option PStr) (content : Option PStr)
  | unrecognized
  deriving DecidableEq

/-- Python truthiness for an optional string field: `None` and `""` are falsy. -/
def optText : Option PStr → Option PStr
  | some c => if c = [] then none else some c
  | none => none

/-- `translator.extract_text`. -/
def extract_text : RespEvent → Option PStr
  | .message c => optText c
  | .reasoning c =>
    match optText c with
    | some cc => some (str "💡 Reasoning: " ++ cc)
    | none => none
  | .planRequireUserInput c =>
    match optText c with
    | some cc => some (str "📝 The agent needs more info:\n" ++ cc)
    | none => some (str "📝 The agent needs more information.")
  | .planFailed c =>
    match optText c with
    | some cc => some (str "⚠️ Plan failed:\n" ++ cc)
    | none => some (str "⚠️ Plan failed.")
  | .done => some (str "✅ Done.")
  | .toolCallStarted n =>
    match optText n with
    | some nm => some (str "🛠 Tool " ++ nm ++ str " started.")
    | none => some (str "🛠 Tool call started.")
  | .toolCallCompleted n =>
    match optText n with
    | some nm => some (str "🛠 Tool " ++ nm ++ str " completed.")
    | none => some (str "🛠 Tool call completed.")
  | .componentGenerator ct c =>
    match optText c with
    | some cc =>
      some (str "📦 Component (" ++ (optText ct).getD (str "unknown") ++ str "):\n" ++ cc)
    | none =>
      some (str "📦 Component generated (" ++ (optText ct).getD (str "unknown") ++ str ").")
  | .unrecognized => none

/-! ### The streaming aggregator (`TelegramBotApp._stream_query`)

Per-stream state and one loop iteration per event.  Timestamps
(`time.monotonic()`) are integer milliseconds; `throttle_seconds = 0.6`
becomes 600 ms.  Each outbound edit performed through `_safe_send` is
recorded as a `SendRec` carrying the candidate payload handed to
`_safe_send`, the current time, the kind of send, and (as ghost data for
stating the throttling discipline) the values of `last_sent_payload` and
`last_edit` at the moment of the send. -/

/-- 0.6 s in milliseconds. -/
def throttleMs : Int := 600

/-- Which site of `_stream_query` issued an outbound edit. -/
inductive SKind where
  | tool | content | final | fallback
  deriving DecidableEq

/-- One outbound edit, as issued through `_safe_send`. -/
structure SendRec where
  payload : PStr
  time : Int
  kind : SKind
  preLastSent : PStr
  preLastEdit : Int
  deriving DecidableEq

/-- The per-stream mutable state of `_stream_query` plus the trace of
outbound edits. -/
structure AggState where
  buffer : PStr
  tools : List PStr
  lastEdit : Int
  lastSent : PStr
  sent : List SendRec
  deriving DecidableEq

/-- `_safe_send`: returns without any transport call on empty text,
otherwise issues exactly one edit (whose wire payload is
`truncatePayload text`). -/
def safeSendRecs (text : PStr) (now : Int) (kind : SKind)
    (preLastSent : PStr) (preLastEdit : Int) : List SendRec :=
  if text = [] then [] else [⟨text, now, kind, preLastSent, preLastEdit⟩]

/-- State at stream start: `buffer_text = ""`, `tool_messages = []`,
`last_edit = monotonic()`, `last_sent_payload = ""`. -/
def initState (t0 : Int) : AggState :=
  ⟨[], [], t0, [], []⟩

/-- One iteration of the `async for` loop of `_stream_query`, for an event
whose `extract_text` arrives at time `now`. -/
def streamStep (s : AggState) (e : RespEvent) (now : Int) : AggState :=
  match extract_text e with
  | none => s
  | some text =>
    if text = [] then s
    else if isToolMessage text then
      let tools' := s.tools ++ [pyStrip text]
      let display := joinNL tools'
      { s with tools := tools'
               sent := s.sent ++ safeSendRecs display now .tool s.lastSent s.lastEdit
               lastSent := display }
    else
      let s1 := if s.tools = [] then s
                else { s with tools := [], lastSent := [], buffer := [], lastEdit := 0 }
      let n := normalizeChunk text
      if n = [] then s1
      else
        let buf := append_chunk s1.buffer n
        if now - s1.lastEdit ≥ throttleMs ∨ s1.lastSent = [] then
          if buf ≠ s1.lastSent then
            { s1 with buffer := buf
                      sent := s1.sent ++ safeSendRecs buf now .content s1.lastSent s1.lastEdit
                      lastSent := buf
                      lastEdit := now }
          else { s1 with buffer := buf, lastEdit := now }
        else { s1 with buffer := buf }

/-- The fixed fallback message sent when the stream produced nothing. -/
def fallbackText : PStr := str "⚠️ 尚未收到任何内容，请稍后重试。"

/-- The code after the `async for` loop of `_stream_query`: the final flush
at stream exhaustion. -/
def streamFinish (s : AggState) : AggState :=
  let finalText := pyStrip s.buffer
  if finalText ≠ [] then
    if finalText ≠ s.lastSent then
      { s with sent := s.sent ++ safeSendRecs finalText 0 .final s.lastSent s.lastEdit }
    else s
  else if s.tools = [] then
    if fallbackText ≠ s.lastSent then
      { s with sent := s.sent ++ safeSendRecs fallbackText 0 .fallback s.lastSent s.lastEdit }
    else s
  else s

/-- Consume a stream: fold the loop body over the (event, arrival time)
sequence starting from the stream-start state. -/
def runEvents (t0 : Int) (events : List (RespEvent × Int)) : AggState :=
  events.foldl (fun s p => streamStep s p.1 p.2) (initState t0)

/-- A whole `_stream_query` call on a stream that terminates normally. -/
def fullRun (t0 : Int) (events : List (RespEvent × Int)) : AggState :=
  streamFinish (runEvents t0 events)

/-- The candidate payloads of the outbound edits, in order. -/
def sentPayloads (s : AggState) : List PStr := s.sent.map (·.payload)





/-! ### The session store (`telegram_repository.py`, `storage.py`)

A `telegram_sessions` table row; the table is a list of rows.  The unique
constraint `uq_telegram_session_chat_user_agent` is expressed as the
`KeysNodup` predicate (the repository's `.one_or_none()` lookup assumes it). -/

structure SRow where
  chat : Int
  user : Int
  agent : String
  conv : String
  active : Bool
  deriving DecidableEq

abbrev Store := List SRow

/-- Row matches the unique key `(chat_id, user_id, agent_name)`. -/
def keyMatch (c u : Int) (a : String) (r : SRow) : Bool :=
  r.chat == c && r.user == u && r.agent == a

/-- Row is an active session for `(chat_id, user_id)`. -/
def activeMatch (c u : Int) (r : SRow) : Bool :=
  r.chat == c && r.user == u && r.active

/-- The unique constraint on `(chat_id, user_id, agent_name)`. -/
def KeysNodup (s : Store) : Prop :=
  (s.map (fun r => (r.chat, r.user, r.agent))).Nodup

/-- `TelegramSessionRepository.upsert_session`: update the existing row's
`conversation_id` and force `is_active = True`, or insert a fresh row
(whose `is_active` column defaults to `True`). -/
def upsert_session (c u : Int) (conv a : String) (s : Store) : Store :=
  if s.any (keyMatch c u a) then
    s.map (fun r => if keyMatch c u a r then { r with conv := conv, active := true } else r)
  else s ++ [⟨c, u, a, conv, true⟩]

/-- `TelegramSessionRepository.deactivate_other_agents`. -/
def deactivate_other_agents (c u : Int) (keep : String) (s : Store) : Store :=
  s.map (fun r => if r.chat == c && r.user == u && !(r.agent == keep)
                  then { r with active := false } else r)

/-- `TelegramSessionStore._upsert_sync`: one completed `upsert_session` call
(upsert, then deactivate the other agents). -/
def upsertCall (c u : Int) (conv a : String) (s : Store) : Store :=
  deactivate_other_agents c u a (upsert_session c u conv a s)

/-- A sequence of completed `upsert_session` calls for a fixed
`(chat_id, user_id)`, each given as an `(agent_name, conversation_id)` pair. -/
def applyCalls (c u : Int) (s : Store) (calls : List (String × String)) : Store :=
  calls.foldl (fun st p => upsertCall c u p.2 p.1 st) s

/-! ### Session resolution (`context.py`, `service.py`) -/

/-- Python `x or y` truthiness on an optional string (`None` and `""` falsy). -/
def strOpt : Option String → Option String
  | some s => if s = "" then none else some s
  | none => none

/-- `ChatContextManager._build_conversation_id`:
`f"tg-{chat_id}-{user_id}-{agent_name or 'default_agent'}"`. -/
def buildConversationId (chat user : Int) (agent : Option String) : String :=
  "tg-" ++ toString chat ++ "-" ++ toString user ++ "-" ++ (strOpt agent).getD "default_agent"

/-- Modelled from the spec: `core_conversation_service.ensure_conversation`
(the `valuecell.core.conversation` service is not under `src/`).  Per §4.4 it
ensures a conversation exists for the requested deterministic conversation id
and agent, and returns that conversation. -/
structure Conversation where
  conversation_id : String
  agent_name : Option String

/-- Modelled from the spec (see `Conversation`). -/
def ensureConversation (conversationId : String) (agentName : Option String) : Conversation :=
  ⟨conversationId, agentName⟩

/-- `TelegramSessionRepository.get_active_session`, under the modelling
choice that the database returns the first stored matching row (after any
completed `upsertCall` at most one row can match, so the `updated_at`
ordering is immaterial). -/
def getActiveSession (c u : Int) (s : Store) : Option SRow :=
  s.find? (activeMatch c u)

/-- The session-resolution portion of
`TelegramBotService.stream_chat_completion` with no explicit agent
requested: adopt the active session's agent if any, build the deterministic
conversation id, ensure the conversation, and upsert the session.  Returns
the conversation id used for the request together with the updated store. -/
def resolveOnce (s : Store) (c u : Int) : String × Store :=
  let agentOpt := (getActiveSession c u s).map (·.agent)
  let conversation := ensureConversation (buildConversationId c u agentOpt) agentOpt
  let agentOpt2 := match agentOpt with
                   | some a => some a
                   | none => conversation.agent_name
  let agentFinal := ((strOpt agentOpt2).orElse fun _ => strOpt conversation.agent_name).getD
      "default_agent"
  (conversation.conversation_id,
   upsertCall c u conversation.conversation_id agentFinal s)

/-! ### Outbound delivery with formatting fallback
(`_safe_send` / `_answer_with_fallback`)

The transport call may succeed or raise; `except Exception` in the source
catches every failure kind.  A delivery is modelled as the list of attempted
transport calls, each tagged with the parse mode used (`some mode` = rich
formatting, `none` = plain). -/

/-- Why a rich-formatted transport attempt failed. -/
inductive FailKind where
  | formatting   -- rich-text formatting rejected by the transport
  | transient    -- any other exception (network error, flood limit, ...)
  deriving DecidableEq

/-- The sequence of transport attempts made by `_safe_send` (and likewise
`_answer_with_fallback`) for one delivery, given the configured parse mode
and the outcome of the rich attempt (`none` = success). -/
def deliverAttempts (parseMode : Option String) (richOutcome : Option FailKind) :
    List (Option String) :=
  match parseMode with
  | none => [none]
  | some m =>
    match richOutcome with
    | none => [some m]
    | some _ => [some m, none]


/-! ### Derived predicates used by the verification -/

/-- Invariant of a fully stripped, non-empty Python string. -/
def Stripped (x : PStr) : Prop := x ≠ [] ∧ pyLstrip x = x ∧ pyRstrip x = x

/-- The separator `_merge_inline` inserts after a stripped left part. -/
def mergeSep (l : PStr) : Char := if endsPunct l then '\n' else ' '

/-- Two adjacent characters that do not form a `"\n\n"` boundary. -/
def nn (a b : Char) : Prop := ¬(a = '\n' ∧ b = '\n')

/-- The string contains no `"\n\n"` substring. -/
def NoPara (x : PStr) : Prop := List.Chain' nn x

/-- A normalized content fragment: non-empty, fully stripped, and without a
blank-line boundary (exactly the shape `_normalize_chunk` produces). -/
def GoodFrag (f : PStr) : Prop := Stripped f ∧ NoPara f

/-- The accumulated buffer is empty or a good fragment. -/
def GoodBuf (b : PStr) : Prop := b = [] ∨ GoodFrag b

/-- Fold the fragments with the inline boundary rule: the "precomputed
concatenation" of a fragment sequence. -/
def foldFrags (frags : List PStr) : PStr := frags.foldl merge_inline []

/-- The character-level effect of `pyCollapse` on a run head. -/
def stSub (c : Char) : Char := if isSpaceTab c then ' ' else c

/-- State invariant of the streaming loop: the accumulated buffer is empty or
a good fragment, and whenever both the buffer and the tool list are empty the
tracked last sent payload is empty as well. -/
def StepInv (s : AggState) : Prop :=
  GoodBuf s.buffer ∧ (s.buffer = [] → s.tools = [] → s.lastSent = [])

/-- The throttling discipline actually enforced by the code at each content
send: the candidate differs from the tracked `last_sent_payload`, and either
0.6 s have elapsed on the tracked throttle clock or the tracked last sent
payload is the empty string. -/
def ContentGuard (rec : SendRec) : Prop :=
  rec.kind = SKind.content →
    rec.payload ≠ rec.preLastSent ∧
      (rec.time - rec.preLastEdit ≥ throttleMs ∨ rec.preLastSent = [])

/-- Trace invariant: every recorded outbound edit has a non-empty candidate
payload and respects the content-send guard. -/
def SentOk (s : AggState) : Prop :=
  ∀ rec ∈ s.sent, rec.payload ≠ [] ∧ ContentGuard rec

/-- The throttling discipline asserted by the spec sentence, read as a
property of the observable outbound edit trace: every content edit that has
a predecessor is issued at least 0.6 s after the previous issued edit and
with a payload different from the previous one actually sent. -/
def ClaimedThrottleDiscipline (trace : List SendRec) : Prop :=
  List.Chain' (fun r1 r2 => r2.kind = SKind.content →
    (r2.time - r1.time ≥ throttleMs ∧ r2.payload ≠ r1.payload)) trace

/-! ### Basic facts about the string primitives -/

theorem length_dropWhile_le (p : Char → Bool) (l : PStr) :
    (l.dropWhile p).length ≤ l.length :=
  (List.dropWhile_suffix p).sublist.length_le

theorem pyLstrip_eq_self_iff {x : PStr} :
    pyLstrip x = x ↔ ∀ c ∈ x.head?, isWs c = false := by
  cases x with
  | nil => simp [pyLstrip]
  | cons c t =>
    simp only [pyLstrip, List.dropWhile_cons, List.head?_cons, Option.mem_def,
      Option.some.injEq, forall_eq']
    by_cases h : isWs c
    · simp only [h, if_pos]
      constructor
      · intro he
        have := length_dropWhile_le isWs t
        rw [he] at this
        simp at this
      · intro he; simp at he
    · simp [h]

theorem pyRstrip_eq_self_iff {x : PStr} :
    pyRstrip x = x ↔ ∀ c ∈ x.getLast?, isWs c = false := by
  constructor
  · intro h c hc
    have h2 : pyLstrip x.reverse = x.reverse := by
      have := congrArg List.reverse h
      simpa [pyRstrip, pyLstrip] using this
    exact pyLstrip_eq_self_iff.mp h2 c (by rwa [List.head?_reverse])
  · intro h
    have h2 : pyLstrip x.reverse = x.reverse := by
      apply pyLstrip_eq_self_iff.mpr
      intro c hc
      exact h c (by rwa [List.head?_reverse] at hc)
    have := congrArg List.reverse h2
    simpa [pyRstrip, pyLstrip] using this

theorem stripped_head {x : PStr} (h : pyLstrip x = x) : ∀ c ∈ x.head?, isWs c = false :=
  pyLstrip_eq_self_iff.mp h

theorem stripped_last {x : PStr} (h : pyRstrip x = x) : ∀ c ∈ x.getLast?, isWs c = false :=
  pyRstrip_eq_self_iff.mp h

theorem pyLstrip_head {x : PStr} (h : pyLstrip x ≠ []) :
    ∀ c ∈ (pyLstrip x).head?, isWs c = false := by
  intro c hc
  unfold pyLstrip at *
  cases hx : x.dropWhile isWs with
  | nil => rw [hx] at h; exact absurd rfl h
  | cons a t =>
    rw [hx] at hc
    simp only [List.head?_cons, Option.mem_def, Option.some.injEq] at hc
    subst hc
    have := List.head_dropWhile_not isWs x (by rw [hx]; simp)
    simpa [hx] using this

theorem pyLstrip_idem (x : PStr) : pyLstrip (pyLstrip x) = pyLstrip x := by
  by_cases h : pyLstrip x = []
  · rw [h]; rfl
  · exact pyLstrip_eq_self_iff.mpr (pyLstrip_head h)

theorem pyRstrip_rev (x : PStr) : (pyRstrip x).reverse = pyLstrip x.reverse := by
  simp [pyRstrip, pyLstrip]

theorem pyRstrip_last {x : PStr} (h : pyRstrip x ≠ []) :
    ∀ c ∈ (pyRstrip x).getLast?, isWs c = false := by
  intro c hc
  have hrev : (pyRstrip x).reverse ≠ [] := by simpa using h
  have : c ∈ (pyLstrip x.reverse).head? := by
    rw [← pyRstrip_rev, List.head?_reverse]; exact hc
  exact pyLstrip_head (by rwa [← pyRstrip_rev]) c this

theorem pyRstrip_idem (x : PStr) : pyRstrip (pyRstrip x) = pyRstrip x := by
  by_cases h : pyRstrip x = []
  · rw [h]; rfl
  · exact pyRstrip_eq_self_iff.mpr (pyRstrip_last h)

theorem suffix_getLast? {l' l : PStr} (h : l' <:+ l) (hne : l' ≠ []) :
    l'.getLast? = l.getLast? := by
  obtain ⟨t, rfl⟩ := h
  exact (List.getLast?_append_of_ne_nil t hne).symm

theorem pyLstrip_suffix (x : PStr) : pyLstrip x <:+ x := List.dropWhile_suffix isWs

theorem pyRstrip_eq_nil_of_strip {x : PStr} (h : pyStrip x ≠ []) : pyRstrip x ≠ [] := by
  intro hr
  apply h
  simp [pyStrip, hr, pyLstrip]


theorem stripped_pyStrip {x : PStr} (h : pyStrip x ≠ []) : Stripped (pyStrip x) := by
  refine ⟨h, ?_, ?_⟩
  · exact pyLstrip_idem (pyRstrip x)
  · apply pyRstrip_eq_self_iff.mpr
    intro c hc
    have hsuf : pyStrip x <:+ pyRstrip x := pyLstrip_suffix (pyRstrip x)
    rw [suffix_getLast? hsuf h] at hc
    exact pyRstrip_last (pyRstrip_eq_nil_of_strip h) c hc

/-! ### The inline merge on stripped strings -/

theorem head?_append_left {a b : PStr} (ha : a ≠ []) : (a ++ b).head? = a.head? := by
  cases a with
  | nil => exact absurd rfl ha
  | cons c t => simp

theorem endsPunct_append {a b : PStr} (hb : b ≠ []) : endsPunct (a ++ b) = endsPunct b := by
  unfold endsPunct
  rw [List.getLast?_append_of_ne_nil a hb]

theorem merge_inline_nil_left (r : PStr) : merge_inline [] r = pyLstrip r := by
  simp [merge_inline, pyRstrip]

theorem merge_inline_nil_right (l : PStr) : merge_inline l [] = pyRstrip l := by
  unfold merge_inline
  by_cases h : pyRstrip l = [] <;> simp [h, pyLstrip]


theorem merge_inline_eq {a b : PStr} (ha : Stripped a) (hb : Stripped b) :
    merge_inline a b = a ++ mergeSep a :: b := by
  unfold merge_inline mergeSep
  rw [ha.2.2, hb.2.1]
  rw [if_neg ha.1, if_neg hb.1]
  by_cases h : endsPunct a <;> simp [h]

theorem stripped_sep {a b : PStr} (ha : Stripped a) (hb : Stripped b) (c : Char) :
    Stripped (a ++ c :: b) := by
  refine ⟨by simp, ?_, ?_⟩
  · apply pyLstrip_eq_self_iff.mpr
    rw [head?_append_left ha.1]
    exact stripped_head ha.2.1
  · apply pyRstrip_eq_self_iff.mpr
    rw [List.getLast?_append_of_ne_nil a (by simp),
        show (c :: b : PStr) = [c] ++ b from rfl,
        List.getLast?_append_of_ne_nil [c] hb.1]
    exact stripped_last hb.2.2

theorem stripped_merge {a b : PStr} (ha : Stripped a) (hb : Stripped b) :
    Stripped (merge_inline a b) := by
  rw [merge_inline_eq ha hb]
  exact stripped_sep ha hb _

theorem merge_inline_assoc {a b c : PStr}
    (ha : Stripped a) (hb : Stripped b) (hc : Stripped c) :
    merge_inline (merge_inline a b) c = merge_inline a (merge_inline b c) := by
  rw [merge_inline_eq (stripped_merge ha hb) hc, merge_inline_eq ha hb,
      merge_inline_eq ha (stripped_merge hb hc), merge_inline_eq hb hc]
  set s := mergeSep a with hs
  have h1 : endsPunct (a ++ s :: b) = endsPunct b := by
    rw [endsPunct_append (a := a) (b := s :: b) (by simp),
        show (s :: b : PStr) = [s] ++ b from rfl,
        endsPunct_append (a := [s]) (b := b) hb.1]
  have hsep : mergeSep (a ++ s :: b) = mergeSep b := by
    unfold mergeSep
    rw [h1]
  rw [hsep]
  simp

/-! ### Strings without a blank-line (paragraph) boundary -/



theorem nn_of_left {x y : Char} (h : x ≠ '\n') : nn x y := fun hc => h hc.1

theorem nn_of_right {x y : Char} (h : y ≠ '\n') : nn x y := fun hc => h hc.2

theorem ne_nl_of_not_ws {c : Char} (h : isWs c = false) : c ≠ '\n' := by
  intro hc
  subst hc
  simp [isWs] at h

theorem noPara_of_no_nl {l : PStr} (h : '\n' ∉ l) : NoPara l := by
  induction l with
  | nil => exact List.chain'_nil
  | cons a t ih =>
    apply List.chain'_cons'.mpr
    refine ⟨fun y _ => nn_of_left (fun ha => h (ha ▸ List.mem_cons_self a t)), ?_⟩
    exact ih (fun hm => h (List.mem_cons_of_mem a hm))

theorem noPara_reverse {x : PStr} (h : NoPara x) : NoPara x.reverse := by
  apply List.chain'_reverse.mpr
  exact h.imp (fun a b hab => fun hc => hab ⟨hc.2, hc.1⟩)

theorem noPara_pyLstrip {x : PStr} (h : NoPara x) : NoPara (pyLstrip x) :=
  h.suffix (pyLstrip_suffix x)

theorem noPara_pyRstrip {x : PStr} (h : NoPara x) : NoPara (pyRstrip x) :=
  noPara_reverse ((noPara_reverse h).suffix (List.dropWhile_suffix isWs))

theorem noPara_pyStrip {x : PStr} (h : NoPara x) : NoPara (pyStrip x) :=
  noPara_pyLstrip (noPara_pyRstrip h)

theorem noPara_append_sep {a b : PStr} {c : Char} (ha : NoPara a) (hb : NoPara b)
    (h1 : ∀ x ∈ a.getLast?, nn x c) (h2 : ∀ y ∈ b.head?, nn c y) :
    NoPara (a ++ c :: b) := by
  apply List.chain'_append.mpr
  refine ⟨ha, List.chain'_cons'.mpr ⟨h2, hb⟩, ?_⟩
  intro x hx y hy
  simp only [List.head?_cons, Option.mem_def, Option.some.injEq] at hy
  subst hy
  exact h1 x hx

theorem noPara_merge {a b : PStr} (ha : Stripped a) (hpa : NoPara a)
    (hb : Stripped b) (hpb : NoPara b) : NoPara (merge_inline a b) := by
  rw [merge_inline_eq ha hb]
  apply noPara_append_sep hpa hpb
  · intro x hx
    exact nn_of_left (ne_nl_of_not_ws (stripped_last ha.2.2 x hx))
  · intro y hy
    exact nn_of_right (ne_nl_of_not_ws (stripped_head hb.2.1 y hy))

theorem paraSplit_ne_nil (x : PStr) : paraSplit x ≠ [] := by
  induction x using paraSplit.induct with
  | case1 => simp [paraSplit]
  | case2 rest ih => simp [paraSplit]
  | case3 c rest hne hps ih =>
    rw [paraSplit.eq_def]
    split
    · simp
    · simp
    · rename_i heq
      cases heq
      rw [hps]
      simp
  | case4 c rest hne p ps hps ih =>
    rw [paraSplit.eq_def]
    split
    · simp
    · simp
    · rename_i heq
      cases heq
      rw [hps]
      simp

theorem noPara_paraSplit {x : PStr} (h : NoPara x) : paraSplit x = [x] := by
  induction x using paraSplit.induct with
  | case1 => rfl
  | case2 rest ih =>
    exfalso
    exact (List.chain'_cons.mp h).1 ⟨rfl, rfl⟩
  | case3 c rest hne hps ih => exact absurd hps (paraSplit_ne_nil rest)
  | case4 c rest hne p ps hps ih =>
    have hrest : paraSplit rest = [rest] := ih (h.tail)
    rw [hrest] at hps
    cases hps
    rw [paraSplit.eq_def]
    split
    · rename_i heq; simp at heq
    · rename_i heq
      cases heq
      exact absurd (hne _ rfl rfl) (fun f => f)
    · rename_i heq
      cases heq
      rw [hrest]

/-! ### `_append_chunk` on normalized single-paragraph fragments -/



theorem goodFrag_merge {a b : PStr} (ha : GoodFrag a) (hb : GoodFrag b) :
    GoodFrag (merge_inline a b) :=
  ⟨stripped_merge ha.1 hb.1, noPara_merge ha.1 ha.2 hb.1 hb.2⟩

theorem append_chunk_eq_merge {b n : PStr} (hb : GoodBuf b) (hn : NoPara n) :
    append_chunk b n = if b = [] then n else merge_inline b n := by
  by_cases hbe : b = []
  · simp [append_chunk, hbe]
  · have hnb : NoPara b := (hb.resolve_left hbe).2
    simp only [append_chunk, if_neg hbe, noPara_paraSplit hnb, noPara_paraSplit hn]
    simp

theorem goodBuf_append {b n : PStr} (hb : GoodBuf b) (hn : GoodFrag n) :
    GoodFrag (append_chunk b n) := by
  rw [append_chunk_eq_merge hb hn.2]
  by_cases hbe : b = []
  · simpa [hbe] using hn
  · rw [if_neg hbe]
    exact goodFrag_merge (hb.resolve_left hbe) hn


theorem goodFrag_foldl {rest : List PStr} {a : PStr} (ha : GoodFrag a)
    (hr : ∀ f ∈ rest, GoodFrag f) : GoodFrag (rest.foldl merge_inline a) := by
  induction rest generalizing a with
  | nil => exact ha
  | cons g gs ih =>
    rw [List.foldl_cons]
    exact ih (goodFrag_merge ha (hr g (by simp))) (fun f hf => hr f (by simp [hf]))

theorem foldl_merge_eq {rest : List PStr} {a : PStr} (ha : GoodFrag a)
    (hr : ∀ f ∈ rest, GoodFrag f) :
    rest.foldl merge_inline a = merge_inline a (foldFrags rest) := by
  induction rest generalizing a with
  | nil =>
    show a = merge_inline a []
    rw [merge_inline_nil_right, ha.1.2.2]
  | cons g gs ih =>
    have hg : GoodFrag g := hr g (by simp)
    have hgs : ∀ f ∈ gs, GoodFrag f := fun f hf => hr f (by simp [hf])
    rw [List.foldl_cons, ih (goodFrag_merge ha hg) hgs]
    have h2 : foldFrags (g :: gs) = merge_inline g (foldFrags gs) := by
      unfold foldFrags
      rw [List.foldl_cons, merge_inline_nil_left, hg.1.2.1, ih hg hgs]
      rfl
    rw [h2]
    by_cases hnil : foldFrags gs = []
    · rw [hnil, merge_inline_nil_right, merge_inline_nil_right, hg.1.2.2,
          (stripped_merge ha.1 hg.1).2.2]
    · have hfs : GoodFrag (foldFrags gs) := by
        cases gs with
        | nil => exact absurd rfl hnil
        | cons g' gs' =>
          have hg' : GoodFrag g' := hgs g' (by simp)
          have : foldFrags (g' :: gs') = gs'.foldl merge_inline g' := by
            unfold foldFrags
            rw [List.foldl_cons, merge_inline_nil_left, hg'.1.2.1]
          rw [this]
          exact goodFrag_foldl hg' (fun f hf => hgs f (by simp [hf]))
      exact merge_inline_assoc ha.1 hg.1 hfs.1

theorem foldFrags_cons {f : PStr} {rest : List PStr} (hg : GoodFrag f)
    (hrest : ∀ g ∈ rest, GoodFrag g) :
    foldFrags (f :: rest) = merge_inline f (foldFrags rest) := by
  unfold foldFrags
  rw [List.foldl_cons, merge_inline_nil_left, hg.1.2.1]
  exact foldl_merge_eq hg hrest

theorem foldFrags_good {rest : List PStr} (hr : ∀ f ∈ rest, GoodFrag f) :
    foldFrags rest = [] ∨ GoodFrag (foldFrags rest) := by
  cases rest with
  | nil => exact Or.inl rfl
  | cons g gs =>
    right
    have hg : GoodFrag g := hr g (by simp)
    have : foldFrags (g :: gs) = gs.foldl merge_inline g := by
      unfold foldFrags
      rw [List.foldl_cons, merge_inline_nil_left, hg.1.2.1]
    rw [this]
    exact goodFrag_foldl hg (fun f hf => hr f (by simp [hf]))

/-! ### `_normalize_chunk` produces good fragments -/

theorem pySplitlines_rn (rest : PStr) :
    pySplitlines ('\r' :: '\n' :: rest) = [] :: pySplitlines rest := rfl

theorem pySplitlines_n (rest : PStr) :
    pySplitlines ('\n' :: rest) = [] :: pySplitlines rest := rfl

theorem pySplitlines_r (rest : PStr) (h : ∀ r, rest ≠ '\n' :: r) :
    pySplitlines ('\r' :: rest) = [] :: pySplitlines rest := by
  rw [pySplitlines.eq_def]
  split
  · rename_i heq; simp at heq
  · rename_i heq
    injection heq with h1 h2
    exact absurd h2 (h _)
  · rename_i heq
    injection heq with h1 h2
    exact absurd h1 (by decide)
  · rename_i heq
    injection heq with h1 h2
    subst h2
    rfl
  · rename_i hrn hn hr heq
    injection heq with h1 h2
    exact absurd h1.symm hr

theorem pySplitlines_c (c : Char) (rest : PStr) (hc1 : c ≠ '\n') (hc2 : c ≠ '\r') :
    pySplitlines (c :: rest) =
      (match pySplitlines rest with
       | [] => [[c]]
       | l :: ls => (c :: l) :: ls) := by
  rw [pySplitlines.eq_def]
  split
  · rename_i heq; simp at heq
  · rename_i heq
    injection heq with h1 h2
    exact absurd h1 hc2
  · rename_i heq
    injection heq with h1 h2
    exact absurd h1 hc1
  · rename_i heq
    injection heq with h1 h2
    exact absurd h1 hc2
  · rename_i hrn hn hr heq
    injection heq with h1 h2
    subst h1; subst h2
    rfl

theorem pySplitlines_no_break {t : PStr} : ∀ l ∈ pySplitlines t, '\n' ∉ l ∧ '\r' ∉ l := by
  induction t using pySplitlines.induct with
  | case1 => simp [pySplitlines]
  | case2 rest ih =>
    intro l hl
    rw [pySplitlines_rn] at hl
    rcases List.mem_cons.mp hl with h | h
    · simp [h]
    · exact ih l h
  | case3 rest ih =>
    intro l hl
    rw [pySplitlines_n] at hl
    rcases List.mem_cons.mp hl with h | h
    · simp [h]
    · exact ih l h
  | case4 rest hne ih =>
    intro l hl
    rw [pySplitlines_r rest (fun r hr => hne r hr)] at hl
    rcases List.mem_cons.mp hl with h | h
    · simp [h]
    · exact ih l h
  | case5 c rest hrn hn hr hnil ih =>
    intro l hl
    rw [pySplitlines_c c rest (fun h => hn h) (fun h => hr h), hnil] at hl
    simp only [List.mem_singleton] at hl
    subst hl
    constructor
    · simp
      exact fun h => hn h.symm
    · simp
      exact fun h => hr h.symm
  | case6 c rest hrn hn hr l0 ls0 heq ih =>
    intro l hl
    rw [pySplitlines_c c rest (fun h => hn h) (fun h => hr h), heq] at hl
    rcases List.mem_cons.mp hl with h | h
    · subst h
      have h0 := ih l0 (by rw [heq]; simp)
      constructor
      · intro hm
        rcases List.mem_cons.mp hm with h | h
        · exact hn h.symm
        · exact h0.1 h
      · intro hm
        rcases List.mem_cons.mp hm with h | h
        · exact hr h.symm
        · exact h0.2 h
    · exact ih l (by rw [heq]; simp [h])

theorem joinNL_head {l : PStr} {ls : List PStr} (hl : l ≠ []) :
    (joinNL (l :: ls)).head? = l.head? := by
  cases ls with
  | nil => rfl
  | cons l' ls' =>
    show (l ++ '\n' :: joinNL (l' :: ls')).head? = l.head?
    exact head?_append_left hl

theorem noPara_joinNL {lines : List PStr}
    (h : ∀ l ∈ lines, l ≠ [] ∧ '\n' ∉ l) : NoPara (joinNL lines) := by
  induction lines with
  | nil => exact List.chain'_nil
  | cons l ls ih =>
    cases ls with
    | nil =>
      show NoPara l
      exact noPara_of_no_nl (h l (by simp)).2
    | cons l' ls' =>
      show NoPara (l ++ '\n' :: joinNL (l' :: ls'))
      have hl := h l (by simp)
      have hl' := h l' (by simp)
      have hrest : NoPara (joinNL (l' :: ls')) :=
        ih (fun x hx => h x (List.mem_cons_of_mem l hx))
      apply noPara_append_sep (noPara_of_no_nl hl.2) hrest
      · intro x hx
        exact nn_of_left (fun hc => hl.2 (hc ▸ List.mem_of_mem_getLast? hx))
      · intro y hy
        rw [joinNL_head hl'.1] at hy
        exact nn_of_right (fun hc => hl'.2 (hc ▸ List.mem_of_mem_head? hy))


theorem pyCollapse_ne_nil {x : PStr} (h : x ≠ []) : pyCollapse x ≠ [] := by
  induction x using pyCollapse.induct with
  | case1 => exact absurd rfl h
  | case2 c hc => simp [pyCollapse, hc]
  | case3 c hc => simp [pyCollapse, hc]
  | case4 c d rest hst1 hst2 ih =>
    rw [pyCollapse, if_pos hst1, if_pos hst2]
    exact ih (by simp)
  | case5 c d rest hst1 hst2 ih =>
    rw [pyCollapse, if_pos hst1, if_neg hst2]
    simp
  | case6 c d rest hst ih =>
    rw [pyCollapse, if_neg hst]
    simp

theorem pyCollapse_head? (x : PStr) : (pyCollapse x).head? = x.head?.map stSub := by
  induction x using pyCollapse.induct with
  | case1 => rfl
  | case2 c hc => simp [pyCollapse, hc, stSub]
  | case3 c hc => simp [pyCollapse, hc, stSub]
  | case4 c d rest hst1 hst2 ih =>
    rw [pyCollapse, if_pos hst1, if_pos hst2, ih]
    simp [stSub, hst1, hst2]
  | case5 c d rest hst1 hst2 ih =>
    rw [pyCollapse, if_pos hst1, if_neg hst2]
    simp [stSub, hst1]
  | case6 c d rest hst ih =>
    rw [pyCollapse, if_neg hst]
    simp [stSub, hst]

theorem getLast?_cons_ne_nil {c : Char} {l : PStr} (h : l ≠ []) :
    (c :: l).getLast? = l.getLast? := by
  rw [show (c :: l : PStr) = [c] ++ l from rfl]
  exact List.getLast?_append_of_ne_nil [c] h

theorem pyCollapse_getLast? (x : PStr) : (pyCollapse x).getLast? = x.getLast?.map stSub := by
  induction x using pyCollapse.induct with
  | case1 => rfl
  | case2 c hc => simp [pyCollapse, hc, stSub]
  | case3 c hc => simp [pyCollapse, hc, stSub]
  | case4 c d rest hst1 hst2 ih =>
    rw [pyCollapse, if_pos hst1, if_pos hst2, ih,
        getLast?_cons_ne_nil (l := d :: rest) (by simp)]
  | case5 c d rest hst1 hst2 ih =>
    rw [pyCollapse, if_pos hst1, if_neg hst2,
        getLast?_cons_ne_nil (pyCollapse_ne_nil (by simp)), ih,
        getLast?_cons_ne_nil (l := d :: rest) (by simp)]
  | case6 c d rest hst ih =>
    rw [pyCollapse, if_neg hst,
        getLast?_cons_ne_nil (pyCollapse_ne_nil (by simp)), ih,
        getLast?_cons_ne_nil (l := d :: rest) (by simp)]

theorem noPara_pyCollapse {x : PStr} (h : NoPara x) : NoPara (pyCollapse x) := by
  induction x using pyCollapse.induct with
  | case1 => exact List.chain'_nil
  | case2 c hc => simp [pyCollapse, hc, NoPara]
  | case3 c hc => simp [pyCollapse, hc, NoPara]
  | case4 c d rest hst1 hst2 ih =>
    rw [pyCollapse, if_pos hst1, if_pos hst2]
    exact ih h.tail
  | case5 c d rest hst1 hst2 ih =>
    rw [pyCollapse, if_pos hst1, if_neg hst2]
    apply List.chain'_cons'.mpr
    refine ⟨fun y _ => nn_of_left (by decide), ih h.tail⟩
  | case6 c d rest hst ih =>
    rw [pyCollapse, if_neg hst]
    apply List.chain'_cons'.mpr
    refine ⟨?_, ih h.tail⟩
    intro y hy
    rw [pyCollapse_head?] at hy
    simp only [List.head?_cons, Option.map_some', Option.mem_def, Option.some.injEq] at hy
    subst hy
    by_cases hd : isSpaceTab d
    · exact nn_of_right (by simp [stSub, hd])
    · have := (List.chain'_cons.mp h).1
      simpa [stSub, hd] using this

theorem mem_pyRstrip {c : Char} {x : PStr} (h : c ∈ pyRstrip x) : c ∈ x := by
  unfold pyRstrip at h
  rw [List.mem_reverse] at h
  have := (List.dropWhile_suffix isWs).sublist.subset h
  rwa [List.mem_reverse] at this

theorem stSub_of_not_ws {c : Char} (h : isWs c = false) : stSub c = c := by
  unfold stSub
  rw [if_neg]
  intro hst
  apply absurd h
  simp only [isSpaceTab, Bool.or_eq_true, beq_iff_eq] at hst
  rcases hst with h1 | h1 <;> simp [h1, isWs]

theorem normalizeChunk_good (t : PStr) :
    normalizeChunk t = [] ∨ GoodFrag (normalizeChunk t) := by
  unfold normalizeChunk
  by_cases h0 : t = []
  · simp [h0]
  rw [if_neg h0]
  by_cases h1 : ((pySplitlines t).filter keepLine).map pyRstrip = []
  · simp [h1]
  rw [if_neg h1]
  by_cases h2 : pyStrip (joinNL (((pySplitlines t).filter keepLine).map pyRstrip)) = []
  · simp [h2]
  rw [if_neg h2]
  right
  have hlines : ∀ l ∈ ((pySplitlines t).filter keepLine).map pyRstrip,
      l ≠ [] ∧ '\n' ∉ l := by
    intro l hl
    rcases List.mem_map.mp hl with ⟨l0, hl0, rfl⟩
    have hmem := (List.mem_filter.mp hl0).1
    have hkeep := (List.mem_filter.mp hl0).2
    have hstrip : pyStrip l0 ≠ [] := by
      simp only [keepLine, Bool.and_eq_true, Bool.not_eq_true'] at hkeep
      intro hc
      rw [hc] at hkeep
      simp at hkeep
    constructor
    · exact pyRstrip_eq_nil_of_strip hstrip
    · intro hc
      exact (pySplitlines_no_break l0 hmem).1 (mem_pyRstrip hc)
  have hstr : Stripped (pyStrip (joinNL (((pySplitlines t).filter keepLine).map pyRstrip))) :=
    stripped_pyStrip h2
  have hnp : NoPara (pyStrip (joinNL (((pySplitlines t).filter keepLine).map pyRstrip))) :=
    noPara_pyStrip (noPara_joinNL hlines)
  refine ⟨⟨pyCollapse_ne_nil h2, ?_, ?_⟩, noPara_pyCollapse hnp⟩
  · apply pyLstrip_eq_self_iff.mpr
    intro c hc
    rw [pyCollapse_head?] at hc
    cases hh : (pyStrip (joinNL (((pySplitlines t).filter keepLine).map pyRstrip))).head? with
    | none => rw [hh] at hc; simp at hc
    | some c0 =>
      rw [hh] at hc
      have hw : isWs c0 = false := stripped_head hstr.2.1 c0 (by rw [hh]; rfl)
      simp only [Option.map_some', Option.mem_def, Option.some.injEq] at hc
      rw [← hc, stSub_of_not_ws hw]
      exact hw
  · apply pyRstrip_eq_self_iff.mpr
    intro c hc
    rw [pyCollapse_getLast?] at hc
    cases hh : (pyStrip (joinNL (((pySplitlines t).filter keepLine).map pyRstrip))).getLast? with
    | none => rw [hh] at hc; simp at hc
    | some c0 =>
      rw [hh] at hc
      have hw : isWs c0 = false := stripped_last hstr.2.2 c0 (by rw [hh]; rfl)
      simp only [Option.map_some', Option.mem_def, Option.some.injEq] at hc
      rw [← hc, stSub_of_not_ws hw]
      exact hw

/-! ### Invariants of the aggregator state and its send trace -/




theorem safeSendRecs_mem {t : PStr} {now : Int} {k : SKind} {pls : PStr} {ple : Int}
    {rec : SendRec} (h : rec ∈ safeSendRecs t now k pls ple) :
    rec = ⟨t, now, k, pls, ple⟩ ∧ t ≠ [] := by
  unfold safeSendRecs at h
  by_cases ht : t = []
  · rw [if_pos ht] at h; simp at h
  · rw [if_neg ht] at h
    simp only [List.mem_singleton] at h
    exact ⟨h, ht⟩

theorem stepInv_init (t0 : Int) : StepInv (initState t0) :=
  ⟨Or.inl rfl, fun _ _ => rfl⟩

theorem sentOk_init (t0 : Int) : SentOk (initState t0) := by
  intro rec hrec
  simp [initState] at hrec

theorem stepInv_step {s : AggState} (hs : StepInv s) (e : RespEvent) (now : Int) :
    StepInv (streamStep s e now) := by
  cases hx : extract_text e with
  | none => simpa [streamStep, hx] using hs
  | some text =>
    simp only [streamStep, hx]
    by_cases ht : text = []
    · simpa [ht] using hs
    rw [if_neg ht]
    by_cases htool : isToolMessage text
    · rw [if_pos htool]
      exact ⟨hs.1, fun _ hc => absurd hc (by simp)⟩
    rw [if_neg htool]
    by_cases htl : s.tools = []
    · rw [if_pos htl]
      by_cases hn : normalizeChunk text = []
      · rw [if_pos hn]; exact hs
      rw [if_neg hn]
      have hgf : GoodFrag (normalizeChunk text) :=
        (normalizeChunk_good text).resolve_left hn
      have hbuf : GoodFrag (append_chunk s.buffer (normalizeChunk text)) :=
        goodBuf_append hs.1 hgf
      by_cases hcond : now - s.lastEdit ≥ throttleMs ∨ s.lastSent = []
      · rw [if_pos hcond]
        by_cases hne : append_chunk s.buffer (normalizeChunk text) ≠ s.lastSent
        · rw [if_pos hne]
          exact ⟨Or.inr hbuf, fun hc => absurd hc hbuf.1.1⟩
        · rw [if_neg hne]
          exact ⟨Or.inr hbuf, fun hc => absurd hc hbuf.1.1⟩
      · rw [if_neg hcond]
        exact ⟨Or.inr hbuf, fun hc => absurd hc hbuf.1.1⟩
    · rw [if_neg htl]
      by_cases hn : normalizeChunk text = []
      · rw [if_pos hn]
        exact ⟨Or.inl rfl, fun _ _ => rfl⟩
      rw [if_neg hn]
      have hgf : GoodFrag (normalizeChunk text) :=
        (normalizeChunk_good text).resolve_left hn
      have hbuf : GoodFrag (append_chunk [] (normalizeChunk text)) :=
        goodBuf_append (Or.inl rfl) hgf
      by_cases hcond : now - (0 : Int) ≥ throttleMs ∨ ([] : PStr) = []
      · rw [if_pos hcond]
        by_cases hne : append_chunk [] (normalizeChunk text) ≠ ([] : PStr)
        · rw [if_pos hne]
          exact ⟨Or.inr hbuf, fun hc => absurd hc hbuf.1.1⟩
        · rw [if_neg hne]
          exact ⟨Or.inr hbuf, fun hc => absurd hc hbuf.1.1⟩
      · exact absurd (Or.inr rfl) hcond

theorem sentOk_step {s : AggState} (hs : SentOk s) (e : RespEvent) (now : Int) :
    SentOk (streamStep s e now) := by
  cases hx : extract_text e with
  | none => simpa [streamStep, hx] using hs
  | some text =>
    simp only [streamStep, hx]
    by_cases ht : text = []
    · simpa [ht] using hs
    rw [if_neg ht]
    by_cases htool : isToolMessage text
    · rw [if_pos htool]
      intro rec hrec
      simp only [List.mem_append] at hrec
      rcases hrec with h | h
      · exact hs rec h
      · rcases safeSendRecs_mem h with ⟨rfl, hne⟩
        exact ⟨hne, fun hk => by simp at hk⟩
    rw [if_neg htool]
    by_cases htl : s.tools = []
    · rw [if_pos htl]
      by_cases hn : normalizeChunk text = []
      · rw [if_pos hn]; exact hs
      rw [if_neg hn]
      by_cases hcond : now - s.lastEdit ≥ throttleMs ∨ s.lastSent = []
      · rw [if_pos hcond]
        by_cases hne : append_chunk s.buffer (normalizeChunk text) ≠ s.lastSent
        · rw [if_pos hne]
          intro rec hrec
          simp only [List.mem_append] at hrec
          rcases hrec with h | h
          · exact hs rec h
          · rcases safeSendRecs_mem h with ⟨rfl, hp⟩
            exact ⟨hp, fun _ => ⟨hne, hcond⟩⟩
        · rw [if_neg hne]; exact hs
      · rw [if_neg hcond]; exact hs
    · rw [if_neg htl]
      by_cases hn : normalizeChunk text = []
      · rw [if_pos hn]; exact hs
      rw [if_neg hn]
      by_cases hcond : now - (0 : Int) ≥ throttleMs ∨ ([] : PStr) = []
      · rw [if_pos hcond]
        by_cases hne : append_chunk [] (normalizeChunk text) ≠ ([] : PStr)
        · rw [if_pos hne]
          intro rec hrec
          simp only [List.mem_append] at hrec
          rcases hrec with h | h
          · exact hs rec h
          · rcases safeSendRecs_mem h with ⟨rfl, hp⟩
            exact ⟨hp, fun _ => ⟨hne, hcond⟩⟩
        · rw [if_neg hne]; exact hs
      · exact absurd (Or.inr rfl) hcond

theorem stepInv_run (t0 : Int) (events : List (RespEvent × Int)) :
    StepInv (runEvents t0 events) := by
  unfold runEvents
  have h : ∀ (evs : List (RespEvent × Int)) (s : AggState), StepInv s →
      StepInv (evs.foldl (fun s p => streamStep s p.1 p.2) s) := by
    intro evs
    induction evs with
    | nil => intro s hs; exact hs
    | cons p ps ih =>
      intro s hs
      exact ih _ (stepInv_step hs p.1 p.2)
  exact h events _ (stepInv_init t0)

theorem sentOk_run (t0 : Int) (events : List (RespEvent × Int)) :
    SentOk (runEvents t0 events) := by
  unfold runEvents
  have h : ∀ (evs : List (RespEvent × Int)) (s : AggState), SentOk s →
      SentOk (evs.foldl (fun s p => streamStep s p.1 p.2) s) := by
    intro evs
    induction evs with
    | nil => intro s hs; exact hs
    | cons p ps ih =>
      intro s hs
      exact ih _ (sentOk_step hs p.1 p.2)
  exact h events _ (sentOk_init t0)

theorem sentOk_finish {s : AggState} (hs : SentOk s) : SentOk (streamFinish s) := by
  unfold streamFinish
  by_cases h1 : pyStrip s.buffer ≠ []
  · rw [if_pos h1]
    by_cases h2 : pyStrip s.buffer ≠ s.lastSent
    · rw [if_pos h2]
      intro rec hrec
      simp only [List.mem_append] at hrec
      rcases hrec with h | h
      · exact hs rec h
      · rcases safeSendRecs_mem h with ⟨rfl, hp⟩
        exact ⟨hp, fun hk => by simp at hk⟩
    · rw [if_neg h2]; exact hs
  · rw [if_neg h1]
    by_cases h3 : s.tools = []
    · rw [if_pos h3]
      by_cases h4 : fallbackText ≠ s.lastSent
      · rw [if_pos h4]
        intro rec hrec
        simp only [List.mem_append] at hrec
        rcases hrec with h | h
        · exact hs rec h
        · rcases safeSendRecs_mem h with ⟨rfl, hp⟩
          exact ⟨hp, fun hk => by simp at hk⟩
      · rw [if_neg h4]; exact hs
    · rw [if_neg h3]; exact hs

/-! ### Facts about the session store operations -/

theorem keys_deactivate (c u : Int) (keep : String) (s : Store) :
    (deactivate_other_agents c u keep s).map (fun r => (r.chat, r.user, r.agent)) =
      s.map (fun r => (r.chat, r.user, r.agent)) := by
  unfold deactivate_other_agents
  rw [List.map_map]
  apply List.map_congr_left
  intro r _
  by_cases h : (r.chat == c && r.user == u && !(r.agent == keep)) = true
  · show (fun r => (r.chat, r.user, r.agent))
      (if r.chat == c && r.user == u && !(r.agent == keep)
       then { r with active := false } else r) = _
    rw [if_pos h]
  · show (fun r => (r.chat, r.user, r.agent))
      (if r.chat == c && r.user == u && !(r.agent == keep)
       then { r with active := false } else r) = _
    rw [if_neg h]

theorem keys_upsert_of_any {c u : Int} {conv a : String} {s : Store}
    (h : s.any (keyMatch c u a)) :
    (upsert_session c u conv a s).map (fun r => (r.chat, r.user, r.agent)) =
      s.map (fun r => (r.chat, r.user, r.agent)) := by
  unfold upsert_session
  rw [if_pos h, List.map_map]
  apply List.map_congr_left
  intro r _
  by_cases hm : keyMatch c u a r = true
  · show (fun r => (r.chat, r.user, r.agent))
      (if keyMatch c u a r then { r with conv := conv, active := true } else r) = _
    rw [if_pos hm]
  · show (fun r => (r.chat, r.user, r.agent))
      (if keyMatch c u a r then { r with conv := conv, active := true } else r) = _
    rw [if_neg hm]

theorem keysNodup_upsertCall {c u : Int} {conv a : String} {s : Store}
    (h : KeysNodup s) : KeysNodup (upsertCall c u conv a s) := by
  unfold upsertCall KeysNodup
  rw [keys_deactivate]
  by_cases hany : s.any (keyMatch c u a)
  · rw [keys_upsert_of_any hany]
    exact h
  · unfold upsert_session
    rw [if_neg hany, List.map_append]
    simp only [List.map_cons, List.map_nil]
    rw [List.nodup_append]
    refine ⟨h, List.nodup_singleton _, ?_⟩
    intro k hk
    rcases List.mem_map.mp hk with ⟨r, hr, rfl⟩
    simp only [List.mem_singleton]
    intro hc
    apply hany
    apply List.any_eq_true.mpr
    refine ⟨r, hr, ?_⟩
    unfold keyMatch
    injection hc with h1 h2
    injection h2 with h2 h3
    simp [h1, h2, h3]

theorem upsert_key_active {c u : Int} {conv a : String} {s : Store} :
    ∀ r ∈ upsert_session c u conv a s, keyMatch c u a r = true → r.active = true := by
  intro r hr hk
  unfold upsert_session at hr
  by_cases hany : s.any (keyMatch c u a)
  · rw [if_pos hany] at hr
    rcases List.mem_map.mp hr with ⟨r0, _, rfl⟩
    by_cases hm : keyMatch c u a r0 = true
    · rw [if_pos hm]
    · rw [if_neg hm] at hk ⊢
      exact absurd hk hm
  · rw [if_neg hany] at hr
    rcases List.mem_append.mp hr with h | h
    · exfalso
      apply hany
      exact List.any_eq_true.mpr ⟨r, h, hk⟩
    · simp only [List.mem_singleton] at h
      subst h
      rfl

theorem deactivate_mem {c u : Int} {keep : String} {s : Store} {r : SRow}
    (hr : r ∈ deactivate_other_agents c u keep s) :
    ∃ r0 ∈ s, r = (if r0.chat == c && r0.user == u && !(r0.agent == keep)
                   then { r0 with active := false } else r0) := by
  unfold deactivate_other_agents at hr
  rcases List.mem_map.mp hr with ⟨r0, h0, heq⟩
  exact ⟨r0, h0, heq.symm⟩

theorem upsertCall_active_agent {c u : Int} {conv a : String} {s : Store} :
    ∀ r ∈ upsertCall c u conv a s, activeMatch c u r = true → r.agent = a := by
  intro r hr hact
  rcases deactivate_mem hr with ⟨r0, _, heq⟩
  by_cases hcond : (r0.chat == c && r0.user == u && !(r0.agent == a)) = true
  · rw [if_pos hcond] at heq
    subst heq
    simp [activeMatch] at hact
  · rw [if_neg hcond] at heq
    subst heq
    simp only [activeMatch, Bool.and_eq_true, beq_iff_eq] at hact
    simp only [Bool.and_eq_true, beq_iff_eq, Bool.not_eq_true',
      beq_eq_false_iff_ne, ne_eq] at hcond
    by_contra hna
    exact hcond ⟨⟨hact.1.1, hact.1.2⟩, hna⟩

theorem upsertCall_key_active {c u : Int} {conv a : String} {s : Store} :
    ∀ r ∈ upsertCall c u conv a s, keyMatch c u a r = true → r.active = true := by
  intro r hr hk
  rcases deactivate_mem hr with ⟨r0, h0, heq⟩
  by_cases hcond : (r0.chat == c && r0.user == u && !(r0.agent == a)) = true
  · rw [if_pos hcond] at heq
    subst heq
    simp only [keyMatch, Bool.and_eq_true, beq_iff_eq] at hk
    simp [hk.2] at hcond
  · rw [if_neg hcond] at heq
    subst heq
    exact upsert_key_active _ h0 hk

theorem upsertCall_exists_active {c u : Int} {conv a : String} (s : Store) :
    ∃ r ∈ upsertCall c u conv a s, keyMatch c u a r = true ∧ r.active = true := by
  have hmem : ∃ r ∈ upsert_session c u conv a s, keyMatch c u a r = true := by
    unfold upsert_session
    by_cases hany : s.any (keyMatch c u a)
    · rw [if_pos hany]
      rcases List.any_eq_true.mp hany with ⟨r0, h0, hk0⟩
      refine ⟨{ r0 with conv := conv, active := true }, ?_, ?_⟩
      · apply List.mem_map.mpr
        exact ⟨r0, h0, by rw [if_pos hk0]⟩
      · simp only [keyMatch, Bool.and_eq_true, beq_iff_eq] at hk0 ⊢
        exact hk0
    · rw [if_neg hany]
      refine ⟨⟨c, u, a, conv, true⟩, by simp, ?_⟩
      simp [keyMatch]
  rcases hmem with ⟨r, hr, hk⟩
  have hmem2 : r ∈ upsertCall c u conv a s := by
    unfold upsertCall deactivate_other_agents
    apply List.mem_map.mpr
    refine ⟨r, hr, ?_⟩
    have hcf : (r.chat == c && r.user == u && !(r.agent == a)) = false := by
      simp only [keyMatch, Bool.and_eq_true, beq_iff_eq] at hk
      simp [hk.2]
    rw [hcf]
    simp
  exact ⟨r, hmem2, hk, upsertCall_key_active r hmem2 hk⟩

theorem countP_map_preserving (p : SRow → Bool) (f : SRow → SRow)
    (hf : ∀ r, p (f r) = p r) (s : Store) :
    (s.map f).countP p = s.countP p := by
  rw [List.countP_map]
  apply List.countP_congr
  intro r _
  show p (f r) = true ↔ p r = true
  rw [hf r]

theorem countP_deactivate (c u : Int) (keep a : String) (s : Store) :
    (deactivate_other_agents c u keep s).countP (keyMatch c u a) =
      s.countP (keyMatch c u a) := by
  unfold deactivate_other_agents
  apply countP_map_preserving
  intro r
  by_cases h : (r.chat == c && r.user == u && !(r.agent == keep)) = true
  · rw [if_pos h]; rfl
  · rw [if_neg h]

theorem countP_upsert (c u : Int) (conv a : String) (s : Store) (h : KeysNodup s) :
    (upsert_session c u conv a s).countP (keyMatch c u a) = 1 := by
  unfold upsert_session
  by_cases hany : s.any (keyMatch c u a)
  · rw [if_pos hany]
    rw [countP_map_preserving (keyMatch c u a) _ (by
      intro r
      by_cases hm : keyMatch c u a r = true
      · rw [if_pos hm]; rfl
      · rw [if_neg hm]) s]
    rcases List.any_eq_true.mp hany with ⟨r0, h0, hk0⟩
    have hle : s.countP (keyMatch c u a) ≤ 1 := by
      clear hany h0 hk0
      induction s with
      | nil => simp
      | cons r t ih =>
        unfold KeysNodup at h
        simp only [List.map_cons, List.nodup_cons] at h
        by_cases hm : keyMatch c u a r = true
        · rw [List.countP_cons_of_pos _ _ hm]
          have hz : t.countP (keyMatch c u a) = 0 := by
            apply List.countP_eq_zero.mpr
            intro r' hr' hk'
            apply h.1
            apply List.mem_map.mpr
            refine ⟨r', hr', ?_⟩
            simp only [keyMatch, Bool.and_eq_true, beq_iff_eq] at hm hk'
            rw [hk'.1.1, hk'.1.2, hk'.2, hm.1.1, hm.1.2, hm.2]
          omega
        · rw [List.countP_cons_of_neg _ _ (by simp [hm])]
          exact ih h.2
    have hge : 0 < s.countP (keyMatch c u a) :=
      List.countP_pos_iff.mpr ⟨r0, h0, hk0⟩
    omega
  · rw [if_neg hany, List.countP_append]
    have hz : s.countP (keyMatch c u a) = 0 := by
      apply List.countP_eq_zero.mpr
      intro r' hr' hk'
      exact absurd (List.any_eq_true.mpr ⟨r', hr', hk'⟩) hany
    rw [hz]
    simp [keyMatch]

theorem countP_upsertCall (c u : Int) (conv a : String) (s : Store) (h : KeysNodup s) :
    (upsertCall c u conv a s).countP (keyMatch c u a) = 1 := by
  unfold upsertCall
  rw [countP_deactivate, countP_upsert c u conv a s h]

theorem upsertCall_active_filter {c u : Int} {conv a : String} {s : Store}
    (h : KeysNodup s) :
    ((upsertCall c u conv a s).filter (activeMatch c u)).map (·.agent) = [a] := by
  have hcong : ∀ r ∈ upsertCall c u conv a s, activeMatch c u r = keyMatch c u a r := by
    intro r hr
    by_cases hact : activeMatch c u r = true
    · have hag := upsertCall_active_agent r hr hact
      rw [hact]
      symm
      simp only [activeMatch, Bool.and_eq_true, beq_iff_eq] at hact
      simp only [keyMatch, Bool.and_eq_true, beq_iff_eq]
      exact ⟨⟨hact.1.1, hact.1.2⟩, hag⟩
    · by_cases hkm : keyMatch c u a r = true
      · exfalso
        apply hact
        have hactv := upsertCall_key_active r hr hkm
        simp only [keyMatch, Bool.and_eq_true, beq_iff_eq] at hkm
        simp only [activeMatch, Bool.and_eq_true, beq_iff_eq]
        exact ⟨⟨hkm.1.1, hkm.1.2⟩, hactv⟩
      · rw [Bool.eq_false_iff.mpr hact, Bool.eq_false_iff.mpr hkm]
  rw [List.filter_congr hcong]
  have hlen : ((upsertCall c u conv a s).filter (keyMatch c u a)).length = 1 := by
    rw [← List.countP_eq_length_filter]
    exact countP_upsertCall c u conv a s h
  obtain ⟨r, hr⟩ := List.length_eq_one.mp hlen
  have hrmem : r ∈ (upsertCall c u conv a s).filter (keyMatch c u a) := by
    rw [hr]; simp
  have hkm := (List.mem_filter.mp hrmem).2
  rw [hr]
  simp only [List.map_cons, List.map_nil, List.cons.injEq, and_true]
  simp only [keyMatch, Bool.and_eq_true, beq_iff_eq] at hkm
  exact hkm.2

theorem keysNodup_applyCalls {c u : Int} {s : Store} (h : KeysNodup s)
    (calls : List (String × String)) : KeysNodup (applyCalls c u s calls) := by
  induction calls generalizing s with
  | nil => exact h
  | cons p ps ih => exact ih (keysNodup_upsertCall h)

theorem getActive_upsertCall (c u : Int) (conv a : String) (s : Store) :
    ∃ r, getActiveSession c u (upsertCall c u conv a s) = some r ∧ r.agent = a := by
  unfold getActiveSession
  rcases @upsertCall_exists_active c u conv a s with
    ⟨r0, hmem, hk, hact⟩
  have hsome : ((upsertCall c u conv a s).find? (activeMatch c u)).isSome := by
    rw [List.find?_isSome]
    refine ⟨r0, hmem, ?_⟩
    simp only [keyMatch, Bool.and_eq_true, beq_iff_eq] at hk
    simp only [activeMatch, Bool.and_eq_true, beq_iff_eq]
    exact ⟨⟨hk.1.1, hk.1.2⟩, hact⟩
  obtain ⟨r, hr⟩ := Option.isSome_iff_exists.mp hsome
  refine ⟨r, hr, ?_⟩
  exact upsertCall_active_agent r (List.mem_of_find?_eq_some hr) (List.find?_some hr)

theorem strOpt_some_ne {o : Option String} {x : String} (h : strOpt o = some x) :
    x ≠ "" := by
  cases o with
  | none => simp [strOpt] at h
  | some y =>
    rw [show strOpt (some y) = if y = "" then none else some y from rfl] at h
    by_cases hy : y = ""
    · rw [if_pos hy] at h; simp at h
    · rw [if_neg hy] at h
      injection h with h
      rw [← h]
      exact hy

theorem strOpt_of_ne {x : String} (h : x ≠ "") : strOpt (some x) = some x := by
  rw [show strOpt (some x) = if x = "" then none else some x from rfl, if_neg h]

/-- Characterization of one session resolution step: the returned
conversation id is the deterministic id built from the adopted agent, and the
store is updated by one completed upsert call for the effective agent. -/
theorem resolveOnce_eq (s : Store) (c u : Int) :
    resolveOnce s c u =
      (buildConversationId c u ((getActiveSession c u s).map (fun r => r.agent)),
       upsertCall c u
         (buildConversationId c u ((getActiveSession c u s).map (fun r => r.agent)))
         ((strOpt ((getActiveSession c u s).map (fun r => r.agent))).getD "default_agent")
         s) := by
  unfold resolveOnce ensureConversation
  cases hA : (getActiveSession c u s).map (fun r => r.agent) with
  | none => rfl
  | some a0 =>
    by_cases ha : a0 = ""
    · subst ha
      rfl
    · simp only
      rw [strOpt_of_ne ha]
      rfl

theorem optText_ne_nil {o : Option PStr} {t : PStr} (h : optText o = some t) : t ≠ [] := by
  cases o with
  | none => simp [optText] at h
  | some c =>
    rw [show optText (some c) = if c = [] then none else some c from rfl] at h
    by_cases hc : c = []
    · rw [if_pos hc] at h; simp at h
    · rw [if_neg hc] at h
      injection h with h
      rw [← h]
      exact hc

theorem extract_text_ne_nil {e : RespEvent} {t : PStr} (h : extract_text e = some t) :
    t ≠ [] := by
  cases e with
  | message c => exact optText_ne_nil h
  | reasoning c =>
    simp only [extract_text] at h
    cases hc : optText c with
    | none => rw [hc] at h; simp at h
    | some cc =>
      rw [hc] at h
      injection h with h
      rw [← h]
      simp [str]
  | planRequireUserInput c =>
    simp only [extract_text] at h
    cases hc : optText c with
    | none => rw [hc] at h; injection h with h; rw [← h]; simp [str]
    | some cc => rw [hc] at h; injection h with h; rw [← h]; simp [str]
  | planFailed c =>
    simp only [extract_text] at h
    cases hc : optText c with
    | none => rw [hc] at h; injection h with h; rw [← h]; simp [str]
    | some cc => rw [hc] at h; injection h with h; rw [← h]; simp [str]
  | done =>
    simp only [extract_text] at h
    injection h with h
    rw [← h]
    simp [str]
  | toolCallStarted n =>
    simp only [extract_text] at h
    cases hc : optText n with
    | none => rw [hc] at h; injection h with h; rw [← h]; simp [str]
    | some nm => rw [hc] at h; injection h with h; rw [← h]; simp [str]
  | toolCallCompleted n =>
    simp only [extract_text] at h
    cases hc : optText n with
    | none => rw [hc] at h; injection h with h; rw [← h]; simp [str]
    | some nm => rw [hc] at h; injection h with h; rw [← h]; simp [str]
  | componentGenerator ct c =>
    simp only [extract_text] at h
    cases hc : optText c with
    | none => rw [hc] at h; injection h with h; rw [← h]; simp [str]
    | some cc => rw [hc] at h; injection h with h; rw [← h]; simp [str]
  | unrecognized => simp [extract_text] at h

theorem append_chunk_nil_left (n : PStr) : append_chunk [] n = n := by
  simp [append_chunk]

theorem truncatePayload_ne_nil {t : PStr} (h : t ≠ []) : truncatePayload t ≠ [] := by
  unfold truncatePayload
  by_cases hl : maxPayloadLen < t.length
  · rw [if_pos hl]; simp
  · rw [if_neg hl]; exact h

theorem stripBuffer_empty {s : AggState} (hInv : StepInv s)
    (h : pyStrip s.buffer = []) : s.buffer = [] := by
  rcases hInv.1 with hb | hb
  · exact hb
  · exfalso
    apply hb.1.1
    have hfix : pyStrip s.buffer = s.buffer := by
      unfold pyStrip
      rw [hb.1.2.2, hb.1.2.1]
    rw [← hfix, h]

/-! ### Claim theorems -/

/-- C1: for every finite sequence of completed `upsert_session` calls on the
session store for a fixed `(chat_id, user_id)` pair and arbitrary agent
names and conversation ids (each call's two steps — upsert, then deactivate
the other agents — finishing before the next call starts), exactly one
stored row for that pair has `is_active = true` afterwards, namely the row
of the agent upserted last: the rows for `(c, u)` that remain active are
exactly one row whose `agent_name` is the final call's agent. -/
theorem c1_session_uniqueness (s0 : Store) (c u : Int)
    (calls : List (String × String)) (a conv : String) (h : KeysNodup s0) :
    ((applyCalls c u s0 (calls ++ [(a, conv)])).filter (activeMatch c u)).map
      (fun r => r.agent) = [a] := by
  unfold applyCalls
  rw [List.foldl_append, List.foldl_cons, List.foldl_nil]
  exact upsertCall_active_filter (keysNodup_applyCalls h calls)

/-- Witness for C1 at a concrete input. -/
theorem c1_session_uniqueness_witness :
    ((applyCalls 1 2 []
        ([("alpha", "tg-1-2-alpha")] ++ [("beta", "tg-1-2-beta")])).filter
      (activeMatch 1 2)).map (fun r => r.agent) = ["beta"] :=
  c1_session_uniqueness [] 1 2 [("alpha", "tg-1-2-alpha")] "beta" "tg-1-2-beta"
    (by simp [KeysNodup])

/-- C2, counterexample: on the event sequence
`[tool-start("search"), tool-done("search"), message("Paris is "),
message("the capital.")]` (events arriving 50 ms apart, well inside the
0.6 s throttle window), the aggregator does *not* issue exactly the three
claimed edits: after the tool→content buffer reset the tracked last-sent
payload is empty, which forces an immediate intermediate edit `"Paris is"`. -/
theorem c2_end_to_end_counterexample :
    sentPayloads (fullRun 10000
      [(.toolCallStarted (some (str "search")), 10050),
       (.toolCallCompleted (some (str "search")), 10100),
       (.message (some (str "Paris is ")), 10150),
       (.message (some (str "the capital.")), 10200)]) ≠
    [str "🛠 Tool search started.",
     str "🛠 Tool search started.\n🛠 Tool search completed.",
     str "Paris is the capital."] := by decide

/-- C2, amended: the same scenario yields exactly four outbound edits —
the two tool edits, the forced intermediate edit `"Paris is"` issued
immediately after the buffer reset, and the final edit
`"Paris is the capital."` at stream exhaustion. -/
theorem c2_end_to_end_amended :
    sentPayloads (fullRun 10000
      [(.toolCallStarted (some (str "search")), 10050),
       (.toolCallCompleted (some (str "search")), 10100),
       (.message (some (str "Paris is ")), 10150),
       (.message (some (str "the capital.")), 10200)]) =
    [str "🛠 Tool search started.",
     str "🛠 Tool search started.\n🛠 Tool search completed.",
     str "Paris is",
     str "Paris is the capital."] := by decide


/-- C3, counterexample: the claim's throttling discipline, read on the
observable edit trace (every content edit with a predecessor is issued at
least 0.6 s after the last issued edit and with a payload different from the
last payload actually sent), is violated: after a tool edit, the
tool→content reset clears the tracked last-sent payload and throttle clock,
so a content edit can be issued 100 ms after the previous edit and even
repeat its payload verbatim. -/
theorem c3_throttling_counterexample :
    ¬ ClaimedThrottleDiscipline (runEvents 1000
      [(.toolCallStarted (some (str "search")), 1100),
       (.message (some (str "🛠\tTool search started.")), 1200)]).sent := by
  intro h
  have hsent : (runEvents 1000
      [(.toolCallStarted (some (str "search")), 1100),
       (.message (some (str "🛠\tTool search started.")), 1200)]).sent =
      [⟨str "🛠 Tool search started.", 1100, .tool, [], 1000⟩,
       ⟨str "🛠 Tool search started.", 1200, .content, [], 0⟩] := by decide
  rw [ClaimedThrottleDiscipline, hsent] at h
  have hpair := (List.chain'_cons.mp h).1 rfl
  exact absurd hpair.1 (by decide)

/-- C3, amended: during streaming, a content edit is issued only when the
candidate payload differs from the *tracked* `last_sent_payload` and either
0.6 s have elapsed on the *tracked* throttle clock `last_edit` or the
tracked last-sent payload is the empty string.  Both trackers are reset on a
tool→content transition, so "no edit has yet been issued" must be read as
"the tracked last-sent payload is empty", and an edit repeating the payload
of the last actually-sent tool edit is possible. -/
theorem c3_throttling_amended (t0 : Int) (events : List (RespEvent × Int))
    (rec : SendRec) (hmem : rec ∈ (runEvents t0 events).sent)
    (hk : rec.kind = SKind.content) :
    rec.payload ≠ rec.preLastSent ∧
      (rec.time - rec.preLastEdit ≥ throttleMs ∨ rec.preLastSent = []) :=
  (sentOk_run t0 events rec hmem).2 hk

/-- Witness for the amended C3 at a concrete run. -/
theorem c3_throttling_amended_witness :
    (str "hi" ≠ ([] : PStr)) ∧
      ((700 : Int) - 0 ≥ throttleMs ∨ ([] : PStr) = []) :=
  c3_throttling_amended 0 [(.message (some (str "hi")), 700)]
    ⟨str "hi", 700, .content, [], 0⟩ (by decide) rfl

/-- C4: whenever a content-kind (non-tool) event with extractable text
arrives while the tool-message sequence is non-empty, the tool-message
sequence is cleared and the buffer ends up holding exactly the normalized
new content — not the previously accumulated content plus the new
content. -/
theorem c4_tool_transition (s : AggState) (e : RespEvent) (text : PStr) (now : Int)
    (hx : extract_text e = some text) (ht : isToolMessage text = false)
    (htools : s.tools ≠ []) :
    (streamStep s e now).tools = [] ∧
      (streamStep s e now).buffer = normalizeChunk text := by
  have htne : text ≠ [] := extract_text_ne_nil hx
  simp only [streamStep, hx]
  rw [if_neg htne, if_neg (by simp [ht]), if_neg htools]
  by_cases hn : normalizeChunk text = []
  · rw [if_pos hn, hn]
    exact ⟨rfl, rfl⟩
  · rw [if_neg hn, if_pos (Or.inr rfl),
        if_pos (by rw [append_chunk_nil_left]; exact hn)]
    rw [append_chunk_nil_left]
    exact ⟨rfl, rfl⟩

/-- Witness for C4 at a concrete state and event. -/
theorem c4_tool_transition_witness :
    (streamStep ⟨str "old", [str "🛠 Tool x started."], 0, str "🛠 Tool x started.", []⟩
        (.message (some (str "hi"))) 5).tools = [] ∧
      (streamStep ⟨str "old", [str "🛠 Tool x started."], 0, str "🛠 Tool x started.", []⟩
        (.message (some (str "hi"))) 5).buffer = normalizeChunk (str "hi") :=
  c4_tool_transition _ _ (str "hi") 5 rfl (by decide) (by decide)

/-- C5: the conversation id is a deterministic function of chat id, user id
and agent name (with `default_agent` substituted when none is given):
resolving twice in a row with no explicit agent and no intervening switch
returns the same conversation id both times, and two different (non-empty)
agent names for the same chat/user never build the same conversation id. -/
theorem c5_resolution_deterministic (s : Store) (c u : Int) (a1 a2 : String)
    (h1 : a1 ≠ "") (h2 : a2 ≠ "")
    (heq : buildConversationId c u (some a1) = buildConversationId c u (some a2)) :
    (resolveOnce s c u).1 = (resolveOnce ((resolveOnce s c u).2) c u).1 ∧ a1 = a2 := by
  constructor
  · rw [resolveOnce_eq s c u]
    set A := (getActiveSession c u s).map (fun r => r.agent) with hA
    set fA := (strOpt A).getD "default_agent" with hfA
    rw [resolveOnce_eq _ c u]
    obtain ⟨r, hr, hag⟩ :=
      getActive_upsertCall c u (buildConversationId c u A) fA s
    rw [hr]
    simp only [Option.map_some']
    unfold buildConversationId
    have hne : fA ≠ "" := by
      rw [hfA]
      cases hS : strOpt A with
      | none => simp
      | some x => simpa using strOpt_some_ne hS
    rw [hag, strOpt_of_ne hne]
    rfl
  · have h3 := congrArg String.data heq
    unfold buildConversationId at h3
    rw [strOpt_of_ne h1, strOpt_of_ne h2] at h3
    simp only [Option.getD_some, String.data_append] at h3
    have h4 := List.append_cancel_left h3
    have h5 : a1.data = a2.data := h4
    cases a1; cases a2
    exact congrArg String.mk h5

/-- Witness for C5 at a concrete store and identity. -/
theorem c5_resolution_deterministic_witness :
    ((resolveOnce [] 1 2).1 = (resolveOnce ((resolveOnce [] 1 2).2) 1 2).1) ∧
      "alpha" = "alpha" :=
  c5_resolution_deterministic [] 1 2 "alpha" "alpha" (by decide) (by decide) rfl

/-- C6: for a buffer and a sequence of normalized content fragments with no
blank-line boundary, folding the fragments into the buffer one at a time
with `_append_chunk` yields the same final string as applying the same
inline boundary rule once to the precomputed combination of the fragments
(repeated inline merges are associative in effect). -/
theorem c6_inline_merge_assoc (b : PStr) (frags : List PStr)
    (hb : GoodBuf b) (hf : ∀ f ∈ frags, GoodFrag f) :
    frags.foldl append_chunk b = append_chunk b (foldFrags frags) := by
  induction frags generalizing b with
  | nil =>
    show b = append_chunk b (foldFrags [])
    rw [show foldFrags [] = [] from rfl, append_chunk_eq_merge hb List.chain'_nil]
    by_cases hbe : b = []
    · simp [hbe]
    · rw [if_neg hbe, merge_inline_nil_right, (hb.resolve_left hbe).1.2.2]
  | cons f rest ih =>
    have hff : GoodFrag f := hf f (by simp)
    have hfr : ∀ g ∈ rest, GoodFrag g := fun g hg => hf g (by simp [hg])
    rw [List.foldl_cons, ih (append_chunk b f) (Or.inr (goodBuf_append hb hff)) hfr,
        foldFrags_cons hff hfr]
    by_cases hF : foldFrags rest = []
    · rw [hF, merge_inline_nil_right, hff.1.2.2]
      have hgb : GoodFrag (append_chunk b f) := goodBuf_append hb hff
      rw [append_chunk_eq_merge (Or.inr hgb) List.chain'_nil, if_neg hgb.1.1,
          merge_inline_nil_right, hgb.1.2.2]
    · have hgF : GoodFrag (foldFrags rest) := (foldFrags_good hfr).resolve_left hF
      have hgb : GoodFrag (append_chunk b f) := goodBuf_append hb hff
      rw [append_chunk_eq_merge (Or.inr hgb) hgF.2, if_neg hgb.1.1]
      rw [append_chunk_eq_merge hb (noPara_merge hff.1 hff.2 hgF.1 hgF.2)]
      by_cases hbe : b = []
      · rw [if_pos hbe, hbe]
        rw [append_chunk_eq_merge (Or.inl rfl) hff.2, if_pos rfl]
      · rw [if_neg hbe, append_chunk_eq_merge hb hff.2, if_neg hbe]
        exact merge_inline_assoc (hb.resolve_left hbe).1 hff.1 hgF.1

/-- Witness for C6 at concrete fragments. -/
theorem c6_inline_merge_assoc_witness :
    [str "Paris", str "is"].foldl append_chunk [] =
      append_chunk [] (foldFrags [str "Paris", str "is"]) :=
  c6_inline_merge_assoc [] [str "Paris", str "is"] (Or.inl rfl) (by
    intro f hf
    simp only [List.mem_cons, List.not_mem_nil, or_false] at hf
    rcases hf with rfl | rfl
    · exact ⟨⟨by decide, by decide, by decide⟩, noPara_of_no_nl (by decide)⟩
    · exact ⟨⟨by decide, by decide, by decide⟩, noPara_of_no_nl (by decide)⟩)

/-- C7, counterexample: on the run
`[tool-start("search"), message(" ")]` tool activity did occur (a tool edit
was issued) and yet the fallback message is sent at exhaustion, because the
blank content event cleared the tool-message list before normalizing to
nothing; so "the fallback is sent exactly when no content was ever produced
and no tool activity occurred" is false as stated. -/
theorem c7_fallback_counterexample :
    (∃ rec ∈ (fullRun 1000
        [(.toolCallStarted (some (str "search")), 1100),
         (.message (some (str " ")), 1200)]).sent, rec.kind = SKind.fallback) ∧
    (∃ rec ∈ (fullRun 1000
        [(.toolCallStarted (some (str "search")), 1100),
         (.message (some (str " ")), 1200)]).sent, rec.kind = SKind.tool) := by
  decide

/-- C7, amended: on an empty event sequence the aggregator issues exactly
one outbound edit, the fixed "no content received" fallback; and in general
the fallback edit is issued at stream exhaustion exactly when the stripped
accumulated buffer is empty and the tool-message list is empty *at
exhaustion* (tool activity may still have occurred earlier in the stream if
a later content event cleared the tool list). -/
theorem c7_fallback_amended (t0 : Int) (events : List (RespEvent × Int)) :
    sentPayloads (fullRun t0 []) = [fallbackText] ∧
    ((fullRun t0 events).sent.map (fun r => r.kind) =
        (runEvents t0 events).sent.map (fun r => r.kind) ++ [SKind.fallback] ↔
      (pyStrip (runEvents t0 events).buffer = [] ∧
        (runEvents t0 events).tools = [])) := by
  refine ⟨rfl, ?_, ?_⟩
  · intro h
    by_cases h1 : pyStrip (runEvents t0 events).buffer = []
    · by_cases h3 : (runEvents t0 events).tools = []
      · exact ⟨h1, h3⟩
      · exfalso
        unfold fullRun streamFinish at h
        rw [if_neg (by simp [h1]), if_neg h3] at h
        simp at h
    · exfalso
      unfold fullRun streamFinish at h
      rw [if_pos h1] at h
      by_cases h2 : pyStrip (runEvents t0 events).buffer ≠ (runEvents t0 events).lastSent
      · rw [if_pos h2] at h
        rw [show safeSendRecs (pyStrip (runEvents t0 events).buffer) 0 SKind.final
              (runEvents t0 events).lastSent (runEvents t0 events).lastEdit =
            [⟨pyStrip (runEvents t0 events).buffer, 0, SKind.final,
              (runEvents t0 events).lastSent, (runEvents t0 events).lastEdit⟩]
            from by unfold safeSendRecs; rw [if_neg h1]] at h
        rw [List.map_append] at h
        have := List.append_inj_right h (by simp)
        simp at this
      · rw [if_neg h2] at h
        simp at h
  · rintro ⟨h1, h3⟩
    have hInv := stepInv_run t0 events
    have hb0 : (runEvents t0 events).buffer = [] := stripBuffer_empty hInv h1
    have hls : (runEvents t0 events).lastSent = [] := hInv.2 hb0 h3
    unfold fullRun streamFinish
    rw [if_neg (by simp [h1]), if_pos h3,
        if_pos (show fallbackText ≠ (runEvents t0 events).lastSent from by
          rw [hls]; decide)]
    rw [show safeSendRecs fallbackText 0 SKind.fallback
          (runEvents t0 events).lastSent (runEvents t0 events).lastEdit =
        [⟨fallbackText, 0, SKind.fallback,
          (runEvents t0 events).lastSent, (runEvents t0 events).lastEdit⟩]
        from by unfold safeSendRecs; rw [if_neg (by decide)]]
    rw [List.map_append]
    rfl

/-- C8: an oversized payload (longer than the fixed maximum of 3900) is
truncated by `_safe_send` to a text of length at most the maximum that
starts with the truncation marker `…` and whose remainder is a suffix of the
original text (the tail is kept). -/
theorem c8_truncation (t : PStr) (h : maxPayloadLen < t.length) :
    (truncatePayload t).length ≤ maxPayloadLen ∧
      (truncatePayload t).head? = some '…' ∧
      (truncatePayload t).drop 1 <:+ t := by
  unfold truncatePayload
  rw [if_pos h]
  refine ⟨?_, rfl, ?_⟩
  · simp only [List.length_cons, List.length_drop]
    simp only [maxPayloadLen] at h ⊢
    omega
  · simp only [List.drop_succ_cons, List.drop_zero]
    exact List.drop_suffix _ _

/-- Witness for C8 at a concrete oversized payload. -/
theorem c8_truncation_witness :
    (truncatePayload (List.replicate 3901 'a')).length ≤ maxPayloadLen ∧
      (truncatePayload (List.replicate 3901 'a')).head? = some '…' ∧
      (truncatePayload (List.replicate 3901 'a')).drop 1 <:+ List.replicate 3901 'a' :=
  c8_truncation (List.replicate 3901 'a') (by rw [List.length_replicate]; decide)

/-- C9, counterexample: the source catches *every* exception of the
rich-formatted attempt (`except Exception`), so the plain retry is performed
even when the rich attempt failed for a non-formatting reason — "exactly on
a formatting-specific failure" is false: a delivery whose rich attempt
failed with a transient (non-formatting) error still consists of the rich
attempt followed by the plain retry. -/
theorem c9_formatting_retry_counterexample :
    deliverAttempts (some "MarkdownV2") (some FailKind.transient) =
        [some "MarkdownV2", none] ∧
      FailKind.transient ≠ FailKind.formatting := by
  exact ⟨rfl, by decide⟩

/-- C9, amended: with a rich parse mode configured, delivery always
attempts the rich-formatted send first, performs at most one plain retry,
and performs the plain retry exactly when the rich attempt failed — for
*any* failure kind, not only formatting failures; with no parse mode
configured the single attempt is plain. -/
theorem c9_formatting_retry_amended (m : String) (o : Option FailKind) :
    (deliverAttempts (some m) o).head? = some (some m) ∧
    (deliverAttempts (some m) o).count none ≤ 1 ∧
    ((deliverAttempts (some m) o).count none = 1 ↔ o ≠ none) ∧
    deliverAttempts none o = [none] := by
  cases o with
  | none => simp [deliverAttempts]
  | some f => simp [deliverAttempts]

/-- C10: no outbound edit is ever issued with an empty payload: every edit
recorded in a full run has a non-empty candidate payload and a non-empty
wire payload after truncation; `_safe_send` performs no transport call at
all on the empty string; and when the stripped buffer is empty at
exhaustion, the only edit the final flush may add is the fallback message
(never an empty content flush). -/
theorem c10_no_empty_edit (t0 : Int) (events : List (RespEvent × Int))
    (now ple : Int) (k : SKind) (pls : PStr) (s : AggState) :
    (∀ rec ∈ (fullRun t0 events).sent,
        rec.payload ≠ [] ∧ truncatePayload rec.payload ≠ []) ∧
    safeSendRecs [] now k pls ple = [] ∧
    (pyStrip s.buffer = [] →
      ∀ rec ∈ (streamFinish s).sent, rec ∈ s.sent ∨ rec.kind = SKind.fallback) := by
  refine ⟨?_, rfl, ?_⟩
  · intro rec hrec
    have h := sentOk_finish (sentOk_run t0 events) rec hrec
    exact ⟨h.1, truncatePayload_ne_nil h.1⟩
  · intro hb rec hrec
    unfold streamFinish at hrec
    rw [if_neg (by simp [hb])] at hrec
    by_cases h3 : s.tools = []
    · rw [if_pos h3] at hrec
      by_cases h4 : fallbackText ≠ s.lastSent
      · rw [if_pos h4] at hrec
        rcases List.mem_append.mp hrec with h | h
        · exact Or.inl h
        · rcases safeSendRecs_mem h with ⟨rfl, _⟩
          exact Or.inr rfl
      · rw [if_neg h4] at hrec
        exact Or.inl hrec
    · rw [if_neg h3] at hrec
      exact Or.inl hrec

/-- Witness for C10 at a concrete run. -/
theorem c10_no_empty_edit_witness :
    (str "hi" ≠ ([] : PStr)) ∧ truncatePayload (str "hi") ≠ [] :=
  (c10_no_empty_edit 0 [(.message (some (str "hi")), 700)] 0 0 SKind.tool []
      (initState 0)).1
    ⟨str "hi", 700, SKind.content, [], 0⟩ (by decide)
